import Mathlib

/-!
Verification of the concurrent keyword search engine (`text-searcher-1.py`,
lock-based threads, and `text-searcher-2.py`, queue-based processes).

The filesystem is modelled as a function from file paths to `Option String`:
`some content` is a successful read, `none` is any read/decode error
(the Python code catches every exception from `open`/`read`).  Directory
listing (`path.glob(pattern)`) is modelled as an `Option (List String)`:
`none` is a listing failure caught by the outer `try`, `some files` the
produced file list.  Concurrency is modelled by a deterministic scheduling
(chunks processed in order, files within a chunk in order); the merge
operation is proved associative and commutative, which is exactly the
property making every interleaving of the lock-protected updates (variant 1)
and every queue arrival order (variant 2) produce this same result.
-/

/-- A filesystem: path to `some content`, or `none` when the read fails. -/
def FileSys : Type := String → Option String

/-- `prefixCheck p l` : the character list `p` is a prefix of `l`. -/
def prefixCheck : List Char → List Char → Bool
  | [], _ => true
  | _ :: _, [] => false
  | a :: p, b :: l => a = b && prefixCheck p l

/-- `substrCheck p l` : `p` occurs contiguously somewhere in `l`
(Python's `p in l` on strings). -/
def substrCheck (p : List Char) : List Char → Bool
  | [] => prefixCheck p []
  | c :: l => prefixCheck p (c :: l) || substrCheck p l

/-- `keyword.lower() in content.lower()` from `search_file`
(the source lowercases `content` once at read time and each keyword at
test time; applying the lowering to both operands here is the same test).
Python's `str.lower()` is modelled as per-character lowering of the
character sequence. -/
def keywordOccurs (keyword content : String) : Bool :=
  substrCheck (keyword.data.map Char.toLower) (content.data.map Char.toLower)

/-- A Python `dict`/`defaultdict(set)` mapping keywords to sets of file
paths: the set of present keys, and the value looked up at each key
(`∅` at absent keys, matching `defaultdict(set)` semantics). -/
@[ext]
structure ResultsDict where
  keys : Finset String
  val : String → Finset String

/-- A freshly created `defaultdict(set)`. -/
def emptyResults : ResultsDict := ⟨∅, fun _ => ∅⟩

/-- `TextSearcher.search_file` (both variants are textually the same
function): on a successful read, lowercase the content and record
`filepath` under every keyword occurring in it; on a read error, log and
return the empty mapping. -/
def searchFile (fs : FileSys) (keywords : Finset String) (filepath : String) :
    ResultsDict :=
  match fs filepath with
  | none => emptyResults
  | some content =>
    let matched := keywords.filter (fun k => keywordOccurs k content)
    ⟨matched, fun k => if k ∈ matched then {filepath} else ∅⟩

/-- One key-wise union of a local result into an accumulated result:
`for keyword, files in local_results.items(): results[keyword].update(files)`.
(`loc.val k = ∅` at keys absent from `loc`, so unioning at every key is the
same as unioning at `loc`'s keys only.) -/
def mergeInto (results loc : ResultsDict) : ResultsDict :=
  ⟨results.keys ∪ loc.keys, fun k => results.val k ∪ loc.val k⟩

/-- `TextSearcher.process_files` of variant 1: scan each file of the chunk
in order and union its local result into the shared `self.results`
(the lock makes each union atomic; `results` is the state it starts from). -/
def processFiles (fs : FileSys) (keywords : Finset String)
    (files : List String) (results : ResultsDict) : ResultsDict :=
  files.foldl (fun res fp => mergeInto res (searchFile fs keywords fp)) results

/-- `TextSearcher.process_files` of variant 2: accumulate a fresh
`process_results` over the chunk and hand it off (via the queue). -/
def processFilesLocal (fs : FileSys) (keywords : Finset String)
    (files : List String) : ResultsDict :=
  processFiles fs keywords files emptyResults

/-- The chunking comprehension of `search_directory` (both variants):
`[all_files[i:i + size] for i in range(0, len(all_files), size)]`.
`range(0, n, size)` has `⌈n / size⌉ = (n + size - 1) / size` elements, and
the slice `l[i:i+size]` is `(l.drop i).take size`. -/
def fileChunks (size : Nat) (l : List α) : List (List α) :=
  (List.range' 0 ((l.length + size - 1) / size) size).map
    (fun i => (l.drop i).take size)

/-- The chunk size of both variants:
`files_per_thread = len(all_files) // num_threads + 1`. -/
def filesPerWorker (numFiles numWorkers : Nat) : Nat :=
  numFiles / numWorkers + 1

/-- `search_directory` of variant 1 (threads + lock).  `listing` is the
outcome of `list(path.glob(file_pattern))`; `results` is `self.results` at
call time (empty on a fresh instance).  The thread pool runs
`process_files` on every chunk, all updating `self.results` under the
lock; the modelled schedule processes chunks in order. -/
def searchDirectory1 (fs : FileSys) (keywords : Finset String)
    (numThreads : Nat) (listing : Option (List String))
    (results : ResultsDict) : ResultsDict :=
  match listing with
  | none => results
  | some allFiles =>
    if allFiles = [] then results
    else
      let size := filesPerWorker allFiles.length numThreads
      (fileChunks size allFiles).foldl
        (fun res chunk => processFiles fs keywords chunk res) results

/-- `final_results = defaultdict(set)` then one `result_queue.get()` per
process, each unioned key-wise — variant 2's aggregation loop, with queue
arrival in the given list order. -/
def mergeAll (locals : List ResultsDict) : ResultsDict :=
  locals.foldl mergeInto emptyResults

/-- `search_directory` of variant 2 (processes + queue): empty listing and
listing failure both return `{}`; otherwise each chunk's local result is
produced independently and merged by the aggregation loop. -/
def searchDirectory2 (fs : FileSys) (keywords : Finset String)
    (numProcesses : Nat) (listing : Option (List String)) : ResultsDict :=
  match listing with
  | none => emptyResults
  | some allFiles =>
    if allFiles = [] then emptyResults
    else
      let size := filesPerWorker allFiles.length numProcesses
      mergeAll ((fileChunks size allFiles).map
        (fun chunk => processFilesLocal fs keywords chunk))

/-! ## The merge algebra -/

theorem mergeInto_empty_left (d : ResultsDict) :
    mergeInto emptyResults d = d := by
  ext k x <;> simp [mergeInto, emptyResults]

theorem mergeInto_empty_right (d : ResultsDict) :
    mergeInto d emptyResults = d := by
  ext k x <;> simp [mergeInto, emptyResults]

theorem mergeInto_comm (a b : ResultsDict) :
    mergeInto a b = mergeInto b a := by
  ext k x <;> simp [mergeInto, Finset.union_comm, or_comm]

theorem mergeInto_assoc (a b c : ResultsDict) :
    mergeInto (mergeInto a b) c = mergeInto a (mergeInto b c) := by
  ext k x <;> simp [mergeInto, Finset.union_assoc, or_assoc]

theorem mergeInto_idem (a : ResultsDict) : mergeInto a a = a := by
  ext k x <;> simp [mergeInto]

theorem mem_val_mergeInto (a b : ResultsDict) (k f : String) :
    f ∈ (mergeInto a b).val k ↔ f ∈ a.val k ∨ f ∈ b.val k := by
  simp [mergeInto]

/-! ## Membership in per-file and per-chunk results -/

theorem mem_val_searchFile (fs : FileSys) (keywords : Finset String)
    (filepath k f : String) :
    f ∈ (searchFile fs keywords filepath).val k ↔
      f = filepath ∧ k ∈ keywords ∧
        ∃ c, fs filepath = some c ∧ keywordOccurs k c = true := by
  cases h : fs filepath with
  | none => simp [searchFile, h, emptyResults]
  | some content =>
    simp only [searchFile, h]
    split_ifs with hk
    · simp only [Finset.mem_singleton]
      rcases Finset.mem_filter.mp hk with ⟨hk1, hk2⟩
      constructor
      · rintro rfl; exact ⟨rfl, hk1, content, rfl, hk2⟩
      · rintro ⟨rfl, -, -⟩; rfl
    · simp only [Finset.not_mem_empty, false_iff]
      rintro ⟨rfl, hk1, c, hc, hocc⟩
      injection hc with hc; subst hc
      exact hk (Finset.mem_filter.mpr ⟨hk1, hocc⟩)

theorem processFiles_nil (fs : FileSys) (keywords : Finset String)
    (results : ResultsDict) : processFiles fs keywords [] results = results := rfl

theorem processFiles_cons (fs : FileSys) (keywords : Finset String)
    (fp : String) (files : List String) (results : ResultsDict) :
    processFiles fs keywords (fp :: files) results =
      processFiles fs keywords files
        (mergeInto results (searchFile fs keywords fp)) := rfl

theorem mem_val_processFiles (fs : FileSys) (keywords : Finset String)
    (files : List String) (results : ResultsDict) (k f : String) :
    f ∈ (processFiles fs keywords files results).val k ↔
      f ∈ results.val k ∨
        (f ∈ files ∧ k ∈ keywords ∧
          ∃ c, fs f = some c ∧ keywordOccurs k c = true) := by
  induction files generalizing results with
  | nil => simp [processFiles_nil]
  | cons fp files ih =>
    rw [processFiles_cons, ih, mem_val_mergeInto, mem_val_searchFile]
    constructor
    · rintro ((h | ⟨rfl, hk, hc⟩) | ⟨hmem, hk, hc⟩)
      · exact Or.inl h
      · exact Or.inr ⟨List.mem_cons_self _ _, hk, hc⟩
      · exact Or.inr ⟨List.mem_cons_of_mem _ hmem, hk, hc⟩
    · rintro (h | ⟨hmem, hk, hc⟩)
      · exact Or.inl (Or.inl h)
      · rcases List.mem_cons.mp hmem with rfl | hmem
        · exact Or.inl (Or.inr ⟨rfl, hk, hc⟩)
        · exact Or.inr ⟨hmem, hk, hc⟩

theorem processFiles_eq_mergeInto (fs : FileSys) (keywords : Finset String)
    (files : List String) (results : ResultsDict) :
    processFiles fs keywords files results =
      mergeInto results (processFilesLocal fs keywords files) := by
  induction files generalizing results with
  | nil => simp [processFilesLocal, processFiles_nil, mergeInto_empty_right]
  | cons fp files ih =>
    have h2 : processFilesLocal fs keywords (fp :: files) =
        mergeInto (searchFile fs keywords fp) (processFilesLocal fs keywords files) := by
      rw [processFilesLocal, processFiles_cons, ih, mergeInto_empty_left]
    rw [processFiles_cons, ih, h2, ← mergeInto_assoc]

theorem mergeAll_nil : mergeAll [] = emptyResults := rfl

theorem mergeAll_cons (d : ResultsDict) (locals : List ResultsDict) :
    mergeAll (d :: locals) = mergeInto d (mergeAll locals) := by
  have aux : ∀ (l : List ResultsDict) (a : ResultsDict),
      l.foldl mergeInto a = mergeInto a (mergeAll l) := by
    intro l
    induction l with
    | nil => intro a; simp [mergeAll, mergeInto_empty_right]
    | cons x l ih =>
      intro a
      simp only [mergeAll, List.foldl_cons] at *
      rw [ih (mergeInto a x), ih (mergeInto emptyResults x),
        mergeInto_empty_left, mergeInto_assoc]
  simpa [mergeAll, mergeInto_empty_left] using aux locals (mergeInto emptyResults d)

/-! ## The chunking comprehension -/

theorem fileChunks_nil (size : Nat) : fileChunks size ([] : List α) = [] := by
  have h0 : (size - 1) / size = 0 := by
    rcases Nat.eq_zero_or_pos size with rfl | hs
    · simp
    · exact Nat.div_eq_of_lt (by omega)
  simp [fileChunks, h0]

theorem fileChunks_cons (size : Nat) (hs : 0 < size) (l : List α) (hl : l ≠ []) :
    fileChunks size l = l.take size :: fileChunks size (l.drop size) := by
  have hn : 1 ≤ l.length := List.length_pos.mpr hl
  have hcount : (l.length + size - 1) / size = (l.length - 1) / size + 1 := by
    have : l.length + size - 1 = (l.length - 1) + size := by omega
    rw [this, Nat.add_div_right _ hs]
  have htail : ((l.drop size).length + size - 1) / size = (l.length - 1) / size := by
    rw [List.length_drop]
    rcases le_or_lt l.length size with h | h
    · have h1 : l.length - size = 0 := by omega
      have e1 : size - 1 < size := by omega
      have e2 : l.length - 1 < size := by omega
      rw [h1, Nat.zero_add, Nat.div_eq_of_lt e1, Nat.div_eq_of_lt e2]
    · congr 1; omega
  rw [fileChunks, hcount, List.range'_succ, List.map_cons, List.drop_zero,
    fileChunks, htail, Nat.zero_add]
  congr 1
  have hshift := List.map_add_range' size 0 ((l.length - 1) / size) size
  rw [Nat.add_zero] at hshift
  rw [← hshift, List.map_map]
  refine List.map_congr_left fun i _ => ?_
  simp only [Function.comp]
  rw [List.drop_drop]

theorem flatten_fileChunks (size : Nat) (hs : 0 < size) (l : List α) :
    (fileChunks size l).flatten = l := by
  by_cases hl : l = []
  · subst hl; simp [fileChunks_nil]
  · rw [fileChunks_cons size hs l hl, List.flatten_cons,
      flatten_fileChunks size hs (l.drop size), List.take_append_drop]
termination_by l.length
decreasing_by
  simp only [List.length_drop]
  have : 1 ≤ l.length := List.length_pos.mpr hl
  omega

theorem fileChunks_contiguous (size : Nat) (l : List α) (c : List α)
    (hc : c ∈ fileChunks size l) : ∃ t u, t ++ c ++ u = l := by
  simp only [fileChunks, List.mem_map] at hc
  obtain ⟨i, -, rfl⟩ := hc
  refine ⟨l.take i, (l.drop i).drop size, ?_⟩
  rw [List.append_assoc, List.take_append_drop, List.take_append_drop]

theorem length_fileChunks (size : Nat) (l : List α) :
    (fileChunks size l).length = (l.length + size - 1) / size := by
  simp [fileChunks]

/-! ## Reducing both variants to a flat scan -/

theorem processFiles_append (fs : FileSys) (keywords : Finset String)
    (l₁ l₂ : List String) (results : ResultsDict) :
    processFiles fs keywords (l₁ ++ l₂) results =
      processFiles fs keywords l₂ (processFiles fs keywords l₁ results) := by
  simp only [processFiles, List.foldl_append]

theorem searchDirectory1_some (fs : FileSys) (keywords : Finset String)
    (numThreads : Nat) (files : List String) (results : ResultsDict)
    (hne : files ≠ []) :
    searchDirectory1 fs keywords numThreads (some files) results =
      processFiles fs keywords files results := by
  have hs : 0 < filesPerWorker files.length numThreads := Nat.succ_pos _
  have h := List.foldl_flatten
    (fun res fp => mergeInto res (searchFile fs keywords fp)) results
    (fileChunks (filesPerWorker files.length numThreads) files)
  rw [flatten_fileChunks _ hs] at h
  simp only [searchDirectory1, if_neg hne]
  rw [processFiles]
  exact h.symm

theorem mergeAll_map_processFilesLocal (fs : FileSys) (keywords : Finset String)
    (chunks : List (List String)) :
    mergeAll (chunks.map (fun chunk => processFilesLocal fs keywords chunk)) =
      processFilesLocal fs keywords chunks.flatten := by
  induction chunks with
  | nil => rfl
  | cons c chunks ih =>
    rw [List.map_cons, mergeAll_cons, ih, List.flatten_cons]
    have h1 : processFilesLocal fs keywords (c ++ chunks.flatten) =
        processFiles fs keywords chunks.flatten (processFilesLocal fs keywords c) := by
      rw [processFilesLocal, processFiles_append]; rfl
    rw [h1, processFiles_eq_mergeInto]

theorem searchDirectory2_some (fs : FileSys) (keywords : Finset String)
    (numProcesses : Nat) (files : List String) (hne : files ≠ []) :
    searchDirectory2 fs keywords numProcesses (some files) =
      processFilesLocal fs keywords files := by
  have hs : 0 < filesPerWorker files.length numProcesses := Nat.succ_pos _
  simp only [searchDirectory2, if_neg hne]
  rw [mergeAll_map_processFilesLocal, flatten_fileChunks _ hs]

/-! ## `substrCheck` really is contiguous-substring occurrence -/

theorem prefixCheck_iff (p l : List Char) :
    prefixCheck p l = true ↔ ∃ u, l = p ++ u := by
  induction p generalizing l with
  | nil => simp [prefixCheck]
  | cons a p ih =>
    cases l with
    | nil => simp [prefixCheck]
    | cons b l =>
      simp only [prefixCheck, Bool.and_eq_true, decide_eq_true_eq, ih,
        List.cons_append, List.cons.injEq]
      constructor
      · rintro ⟨rfl, u, rfl⟩; exact ⟨u, rfl, rfl⟩
      · rintro ⟨u, rfl, rfl⟩; exact ⟨rfl, u, rfl⟩

theorem substrCheck_iff (p l : List Char) :
    substrCheck p l = true ↔ ∃ t u, l = t ++ p ++ u := by
  induction l with
  | nil =>
    simp only [substrCheck, prefixCheck_iff]
    constructor
    · rintro ⟨u, h⟩; exact ⟨[], u, by simpa using h⟩
    · rintro ⟨t, u, h⟩
      rcases List.append_eq_nil.mp h.symm with ⟨h1, h2⟩
      rcases List.append_eq_nil.mp h1 with ⟨-, h3⟩
      exact ⟨[], by simp [h3]⟩
  | cons c l ih =>
    simp only [substrCheck, Bool.or_eq_true, prefixCheck_iff, ih]
    constructor
    · rintro (⟨u, h⟩ | ⟨t, u, rfl⟩)
      · exact ⟨[], u, by simpa using h⟩
      · exact ⟨c :: t, u, rfl⟩
    · rintro ⟨t, u, h⟩
      cases t with
      | nil => exact Or.inl ⟨u, by simpa using h⟩
      | cons b t =>
        rcases List.cons.injEq .. ▸ h with ⟨rfl, h2⟩
        exact Or.inr ⟨t, u, h2⟩

theorem keywordOccurs_iff (keyword content : String) :
    keywordOccurs keyword content = true ↔
      ∃ t u, content.data.map Char.toLower =
        t ++ keyword.data.map Char.toLower ++ u :=
  substrCheck_iff _ _

/-! ## Concrete fixtures for witnesses and counterexamples -/

/-- A small filesystem: two readable files, one whose read fails. -/
def fsDemo : FileSys := fun p =>
  if p = "a.txt" then some "Foobar" else
  if p = "b.txt" then some "baz" else
  if p = "broken.txt" then none else none

/-- A local result mapping "foo" to {"a.txt"}. -/
def dictA : ResultsDict := ⟨{"foo"}, fun k => if k = "foo" then {"a.txt"} else ∅⟩

/-- A local result mapping "bar" to {"b.txt"}. -/
def dictB : ResultsDict := ⟨{"bar"}, fun k => if k = "bar" then {"b.txt"} else ∅⟩

/-! ## The claims -/

/-- C1: for every keyword `k` of the keyword set and file `f` of the scanned
list, `f` is in the returned global result under key `k` iff the lowercased
`k` occurs as a substring of the lowercased content of `f` and the read of
`f` did not fail — for the lock-based variant (fresh instance) and the
queue-based variant alike. -/
theorem c1_result_membership (fs : FileSys) (keywords : Finset String)
    (numWorkers : Nat) (files : List String) (k f : String)
    (hk : k ∈ keywords) (hf : f ∈ files) :
    (f ∈ (searchDirectory1 fs keywords numWorkers (some files) emptyResults).val k ↔
      ∃ c, fs f = some c ∧ keywordOccurs k c = true) ∧
    (f ∈ (searchDirectory2 fs keywords numWorkers (some files)).val k ↔
      ∃ c, fs f = some c ∧ keywordOccurs k c = true) := by
  have hne : files ≠ [] := List.ne_nil_of_mem hf
  rw [searchDirectory1_some fs keywords numWorkers files emptyResults hne,
    searchDirectory2_some fs keywords numWorkers files hne, processFilesLocal,
    mem_val_processFiles]
  simp [emptyResults, hf, hk]

theorem c1_result_membership_witness :
    ("a.txt" ∈ (searchDirectory1 fsDemo {"foo"} 2
        (some ["a.txt", "b.txt"]) emptyResults).val "foo" ↔
      ∃ c, fsDemo "a.txt" = some c ∧ keywordOccurs "foo" c = true) ∧
    ("a.txt" ∈ (searchDirectory2 fsDemo {"foo"} 2
        (some ["a.txt", "b.txt"])).val "foo" ↔
      ∃ c, fsDemo "a.txt" = some c ∧ keywordOccurs "foo" c = true) :=
  c1_result_membership fsDemo {"foo"} 2 ["a.txt", "b.txt"] "foo" "a.txt"
    (by decide) (by decide)

/-- C2: the global result is the same for 1 worker and for any
`numWorkers ≥ 1`, on any keyword set, listing outcome and (for the
lock-based variant) starting state — for both variants. -/
theorem c2_worker_count_irrelevant (fs : FileSys) (keywords : Finset String)
    (listing : Option (List String)) (numWorkers : Nat) (_hw : 1 ≤ numWorkers)
    (results : ResultsDict) :
    searchDirectory1 fs keywords 1 listing results =
      searchDirectory1 fs keywords numWorkers listing results ∧
    searchDirectory2 fs keywords 1 listing =
      searchDirectory2 fs keywords numWorkers listing := by
  cases listing with
  | none => exact ⟨rfl, rfl⟩
  | some files =>
    by_cases hne : files = []
    · subst hne
      constructor <;> simp [searchDirectory1, searchDirectory2]
    · rw [searchDirectory1_some fs keywords 1 files results hne,
        searchDirectory1_some fs keywords numWorkers files results hne,
        searchDirectory2_some fs keywords 1 files hne,
        searchDirectory2_some fs keywords numWorkers files hne]
      exact ⟨rfl, rfl⟩

theorem c2_worker_count_irrelevant_witness :
    searchDirectory1 fsDemo {"foo"} 1 (some ["a.txt", "b.txt"]) emptyResults =
      searchDirectory1 fsDemo {"foo"} 5 (some ["a.txt", "b.txt"]) emptyResults ∧
    searchDirectory2 fsDemo {"foo"} 1 (some ["a.txt", "b.txt"]) =
      searchDirectory2 fsDemo {"foo"} 5 (some ["a.txt", "b.txt"]) :=
  c2_worker_count_irrelevant fsDemo {"foo"} (some ["a.txt", "b.txt"]) 5
    (by decide) emptyResults

/-- C3: when the read of a file fails, `search_file` returns the empty
mapping (it catches the exception instead of raising), and the results
computed for the other files of a batch are exactly those of the batch
with the failing file removed. -/
theorem c3_read_error_isolated (fs : FileSys) (keywords : Finset String)
    (filepath : String) (h : fs filepath = none) :
    searchFile fs keywords filepath = emptyResults ∧
    ∀ (l₁ l₂ : List String) (results : ResultsDict),
      processFiles fs keywords (l₁ ++ filepath :: l₂) results =
        processFiles fs keywords (l₁ ++ l₂) results := by
  have h1 : searchFile fs keywords filepath = emptyResults := by
    rw [searchFile, h]
  refine ⟨h1, fun l₁ l₂ results => ?_⟩
  rw [processFiles_append, processFiles_append, processFiles_cons, h1,
    mergeInto_empty_right]

theorem c3_read_error_isolated_witness :
    searchFile fsDemo {"foo"} "broken.txt" = emptyResults ∧
    ∀ (l₁ l₂ : List String) (results : ResultsDict),
      processFiles fsDemo {"foo"} (l₁ ++ "broken.txt" :: l₂) results =
        processFiles fsDemo {"foo"} (l₁ ++ l₂) results :=
  c3_read_error_isolated fsDemo {"foo"} "broken.txt" (by decide)

/-- C4: for every file list (empty included) and `numWorkers ≥ 1`, the
chunks concatenate back to exactly the input list (no duplicate, no
omission, order preserved), every chunk is a contiguous sub-list of the
input, and on a duplicate-free input the chunks are pairwise disjoint. -/
theorem c4_partition_exact (numWorkers : Nat) (_hw : 1 ≤ numWorkers)
    (l : List String) :
    (fileChunks (filesPerWorker l.length numWorkers) l).flatten = l ∧
    (∀ c ∈ fileChunks (filesPerWorker l.length numWorkers) l,
      ∃ t u, t ++ c ++ u = l) ∧
    (l.Nodup →
      (fileChunks (filesPerWorker l.length numWorkers) l).Pairwise
        List.Disjoint) := by
  have hs : 0 < filesPerWorker l.length numWorkers := Nat.succ_pos _
  have hj := flatten_fileChunks (filesPerWorker l.length numWorkers) hs l
  refine ⟨hj, fun c hc => fileChunks_contiguous _ _ _ hc, fun hnd => ?_⟩
  exact (List.nodup_flatten.mp (by rw [hj]; exact hnd)).2

theorem c4_partition_exact_witness :
    (fileChunks (filesPerWorker (["a", "b", "c"] : List String).length 2)
      ["a", "b", "c"]).flatten = ["a", "b", "c"] ∧
    (∀ c ∈ fileChunks (filesPerWorker (["a", "b", "c"] : List String).length 2)
      ["a", "b", "c"], ∃ t u, t ++ c ++ u = ["a", "b", "c"]) ∧
    ((["a", "b", "c"] : List String).Nodup →
      (fileChunks (filesPerWorker (["a", "b", "c"] : List String).length 2)
        ["a", "b", "c"]).Pairwise List.Disjoint) :=
  c4_partition_exact 2 (by decide) ["a", "b", "c"]

/-- C5: at 8 files and 4 workers the code's chunking formula
`len(files) // workers + 1 = 3` produces 3 chunks of sizes `[3, 3, 2]`,
not 4 chunks of size `ceil(8 / 4) = 2`: the split is neither as even as
possible nor across exactly `num_workers` workers, confirming the
off-by-one the spec flags as a bug (§4.2, §9). -/
theorem c5_chunking_off_by_one :
    filesPerWorker 8 4 = 3 ∧
    (fileChunks (filesPerWorker 8 4)
      ["f1", "f2", "f3", "f4", "f5", "f6", "f7", "f8"]).map List.length =
      [3, 3, 2] ∧
    (fileChunks (filesPerWorker 8 4)
      ["f1", "f2", "f3", "f4", "f5", "f6", "f7", "f8"]).length ≠ 4 := by
  refine ⟨rfl, ?_, ?_⟩ <;> decide

/-- C6 counterexample: on the lock-based variant, a second
`search_directory` call on the same instance (its `self.results` being the
state the first call left behind) returns a mapping that still contains
`"a.txt"`, a file of the first call only — the global result does not
start empty at the beginning of that call. -/
theorem c6_counterexample_state_leak :
    "a.txt" ∈ (searchDirectory1 fsDemo {"foo"} 1 (some ["b.txt"])
      (searchDirectory1 fsDemo {"foo"} 1 (some ["a.txt"]) emptyResults)).val
      "foo" ∧
    "a.txt" ∉ (["b.txt"] : List String) := by
  refine ⟨?_, ?_⟩ <;> decide

/-- C6 amended: the queue-based variant's result depends only on the call's
inputs (every reported file comes from the call's listing); the lock-based
variant satisfies the same when started from an empty `self.results`
(fresh instance / first call); and within any lock-based call the shared
mapping only grows (key-wise unions, never removals). -/
theorem c6_fresh_call_result (fs : FileSys) (keywords : Finset String)
    (numWorkers : Nat) (listing : Option (List String)) (k f : String) :
    (f ∈ (searchDirectory2 fs keywords numWorkers listing).val k →
      ∃ files, listing = some files ∧ f ∈ files) ∧
    (f ∈ (searchDirectory1 fs keywords numWorkers listing emptyResults).val k →
      ∃ files, listing = some files ∧ f ∈ files) ∧
    (∀ results : ResultsDict,
      results.val k ⊆
        (searchDirectory1 fs keywords numWorkers listing results).val k) := by
  cases listing with
  | none =>
    refine ⟨fun h => absurd h ?_, fun h => absurd h ?_, fun results => ?_⟩
    · simp [searchDirectory2, emptyResults]
    · simp [searchDirectory1, emptyResults]
    · exact fun x hx => hx
  | some files =>
    by_cases hne : files = []
    · subst hne
      refine ⟨fun h => absurd h ?_, fun h => absurd h ?_, fun results => ?_⟩
      · simp [searchDirectory2, emptyResults]
      · simp [searchDirectory1, emptyResults]
      · simp only [searchDirectory1, if_pos rfl]
        exact fun x hx => hx
    · rw [searchDirectory2_some fs keywords numWorkers files hne,
        processFilesLocal]
      refine ⟨fun h => ?_, fun h => ?_, fun results x hx => ?_⟩
      · rcases (mem_val_processFiles _ _ _ _ _ _).mp h with h | ⟨hf, -⟩
        · exact absurd h (by simp [emptyResults])
        · exact ⟨files, rfl, hf⟩
      · rw [searchDirectory1_some fs keywords numWorkers files emptyResults
          hne] at h
        rcases (mem_val_processFiles _ _ _ _ _ _).mp h with h | ⟨hf, -⟩
        · exact absurd h (by simp [emptyResults])
        · exact ⟨files, rfl, hf⟩
      · rw [searchDirectory1_some fs keywords numWorkers files results hne]
        exact (mem_val_processFiles _ _ _ _ _ _).mpr (Or.inl hx)

theorem c6_fresh_call_result_witness :
    ∃ files, (some ["a.txt", "b.txt"] : Option (List String)) = some files ∧
      "a.txt" ∈ files :=
  (c6_fresh_call_result fsDemo {"foo"} 2 (some ["a.txt", "b.txt"]) "foo"
    "a.txt").1 (by decide)

/-- C7: when the directory listing itself fails, both variants catch the
failure and return a value instead of propagating an exception: the
lock-based variant returns the current (possibly empty) `self.results`,
the queue-based variant the empty mapping. -/
theorem c7_listing_failure_caught (fs : FileSys) (keywords : Finset String)
    (numWorkers : Nat) (results : ResultsDict) :
    searchDirectory1 fs keywords numWorkers none results = results ∧
    searchDirectory2 fs keywords numWorkers none = emptyResults :=
  ⟨rfl, rfl⟩

/-- The invariant that `defaultdict(set)` accumulation maintains: present
keys hold non-empty path sets, absent keys hold `∅`. -/
def WellFormedResults (d : ResultsDict) : Prop :=
  ∀ k, (k ∈ d.keys → d.val k ≠ ∅) ∧ (k ∉ d.keys → d.val k = ∅)

theorem wellFormed_empty : WellFormedResults emptyResults := by
  intro k
  exact ⟨fun h => absurd h (Finset.not_mem_empty k), fun _ => rfl⟩

theorem wellFormed_searchFile (fs : FileSys) (keywords : Finset String)
    (filepath : String) : WellFormedResults (searchFile fs keywords filepath) := by
  cases h : fs filepath with
  | none => rw [searchFile, h]; exact wellFormed_empty
  | some content =>
    intro k
    simp only [searchFile, h]
    constructor
    · intro hk
      rw [if_pos hk]
      simp
    · intro hk
      rw [if_neg hk]

theorem wellFormed_mergeInto {a b : ResultsDict}
    (ha : WellFormedResults a) (hb : WellFormedResults b) :
    WellFormedResults (mergeInto a b) := by
  intro k
  simp only [mergeInto, Finset.mem_union]
  constructor
  · rintro (hk | hk)
    · intro he
      exact (ha k).1 hk (Finset.union_eq_empty.mp he).1
    · intro he
      exact (hb k).1 hk (Finset.union_eq_empty.mp he).2
  · rintro hk
    push_neg at hk
    rw [(ha k).2 hk.1, (hb k).2 hk.2, Finset.empty_union]

theorem wellFormed_processFiles (fs : FileSys) (keywords : Finset String)
    (files : List String) {results : ResultsDict}
    (hr : WellFormedResults results) :
    WellFormedResults (processFiles fs keywords files results) := by
  induction files generalizing results with
  | nil => exact hr
  | cons fp files ih =>
    rw [processFiles_cons]
    exact ih (wellFormed_mergeInto hr (wellFormed_searchFile fs keywords fp))

/-- C8: aggregation is a key-wise set union: it is commutative,
associative and idempotent (set semantics, no incorrect duplication), and
merging any permutation of the workers' local results yields the same
global result. -/
theorem c8_merge_order_irrelevant :
    (∀ a b : ResultsDict, mergeInto a b = mergeInto b a) ∧
    (∀ a b c : ResultsDict,
      mergeInto (mergeInto a b) c = mergeInto a (mergeInto b c)) ∧
    (∀ a : ResultsDict, mergeInto a a = a) ∧
    (∀ locals₁ locals₂ : List ResultsDict, locals₁.Perm locals₂ →
      mergeAll locals₁ = mergeAll locals₂) := by
  refine ⟨mergeInto_comm, mergeInto_assoc, mergeInto_idem,
    fun locals₁ locals₂ hp => ?_⟩
  induction hp with
  | nil => rfl
  | cons x _ ih => rw [mergeAll_cons, mergeAll_cons, ih]
  | swap x y l =>
    rw [mergeAll_cons, mergeAll_cons, mergeAll_cons, mergeAll_cons,
      ← mergeInto_assoc, ← mergeInto_assoc, mergeInto_comm y x]
  | trans _ _ ih₁ ih₂ => exact ih₁.trans ih₂

theorem c8_merge_order_irrelevant_witness :
    mergeAll [dictA, dictB] = mergeAll [dictB, dictA] :=
  c8_merge_order_irrelevant.2.2.2 [dictA, dictB] [dictB, dictA]
    (List.Perm.swap dictB dictA [])

/-- C9: every keyword present as a key in the mapping returned by
`search_file` — and in the global result of either variant — is mapped to
a non-empty set of paths, and keywords with no match are absent as keys
(their lookup is `∅`); the result never carries an empty-set entry. -/
theorem c9_no_empty_entries (fs : FileSys) (keywords : Finset String)
    (numWorkers : Nat) (filepath : String) (listing : Option (List String)) :
    WellFormedResults (searchFile fs keywords filepath) ∧
    WellFormedResults (searchDirectory1 fs keywords numWorkers listing
      emptyResults) ∧
    WellFormedResults (searchDirectory2 fs keywords numWorkers listing) := by
  refine ⟨wellFormed_searchFile fs keywords filepath, ?_, ?_⟩
  · cases listing with
    | none => exact wellFormed_empty
    | some files =>
      by_cases hne : files = []
      · subst hne
        simp only [searchDirectory1, if_pos rfl]
        exact wellFormed_empty
      · rw [searchDirectory1_some fs keywords numWorkers files emptyResults hne]
        exact wellFormed_processFiles fs keywords files wellFormed_empty
  · cases listing with
    | none => exact wellFormed_empty
    | some files =>
      by_cases hne : files = []
      · subst hne
        simp only [searchDirectory2, if_pos rfl]
        exact wellFormed_empty
      · rw [searchDirectory2_some fs keywords numWorkers files hne,
          processFilesLocal]
        exact wellFormed_processFiles fs keywords files wellFormed_empty

/-- C10: for a non-empty list of `n` files and `w ≥ 1` workers, the
comprehension produces exactly `⌈n / size⌉` chunks for
`size = n / w + 1`, and that count never exceeds `w`: the fixed pool of
`w` execution units always suffices for one chunk per worker. -/
theorem c10_chunk_count_bounded (numWorkers : Nat) (hw : 1 ≤ numWorkers)
    (l : List String) (_hl : l ≠ []) :
    (fileChunks (filesPerWorker l.length numWorkers) l).length =
      (l.length + filesPerWorker l.length numWorkers - 1) /
        filesPerWorker l.length numWorkers ∧
    (fileChunks (filesPerWorker l.length numWorkers) l).length ≤
      numWorkers := by
  have hlen := length_fileChunks (filesPerWorker l.length numWorkers) l
  refine ⟨hlen, ?_⟩
  rw [hlen]
  set n := l.length with hn
  set s := filesPerWorker n numWorkers with hsdef
  have hs : 0 < s := Nat.succ_pos _
  have hw0 : 0 < numWorkers := hw
  have hmod : n % numWorkers < numWorkers := Nat.mod_lt n hw0
  have hdm : numWorkers * (n / numWorkers) + n % numWorkers = n :=
    Nat.div_add_mod n numWorkers
  have hle : n ≤ s * numWorkers := by
    have h1 : s * numWorkers = numWorkers * (n / numWorkers) + numWorkers := by
      rw [hsdef, filesPerWorker, Nat.add_mul, Nat.one_mul, Nat.mul_comm]
    omega
  rw [Nat.div_le_iff_le_mul_add_pred hs]
  omega

theorem c10_chunk_count_bounded_witness :
    (fileChunks (filesPerWorker
      (["f1", "f2", "f3", "f4", "f5", "f6", "f7", "f8"] : List String).length 4)
      ["f1", "f2", "f3", "f4", "f5", "f6", "f7", "f8"]).length =
      ((["f1", "f2", "f3", "f4", "f5", "f6", "f7", "f8"] : List String).length +
        filesPerWorker
          (["f1", "f2", "f3", "f4", "f5", "f6", "f7", "f8"] : List String).length 4
          - 1) /
        filesPerWorker
          (["f1", "f2", "f3", "f4", "f5", "f6", "f7", "f8"] : List String).length 4 ∧
    (fileChunks (filesPerWorker
      (["f1", "f2", "f3", "f4", "f5", "f6", "f7", "f8"] : List String).length 4)
      ["f1", "f2", "f3", "f4", "f5", "f6", "f7", "f8"]).length ≤ 4 :=
  c10_chunk_count_bounded 4 (by decide)
    ["f1", "f2", "f3", "f4", "f5", "f6", "f7", "f8"] (by decide)

theorem c7_listing_failure_caught_witness :
    searchDirectory1 fsDemo {"foo"} 2 none dictA = dictA ∧
    searchDirectory2 fsDemo {"foo"} 2 none = emptyResults :=
  c7_listing_failure_caught fsDemo {"foo"} 2 dictA

theorem c9_no_empty_entries_witness :
    WellFormedResults (searchFile fsDemo {"foo"} "a.txt") ∧
    WellFormedResults (searchDirectory1 fsDemo {"foo"} 2
      (some ["a.txt", "b.txt"]) emptyResults) ∧
    WellFormedResults (searchDirectory2 fsDemo {"foo"} 2
      (some ["a.txt", "b.txt"])) :=
  c9_no_empty_entries fsDemo {"foo"} 2 "a.txt" (some ["a.txt", "b.txt"])
